import Mathlib

/- Verification of the chimera browser core against its Go sources:
   string utilities (Go strings package operations used by the code),
   the LLM client (endpoint normalization, rate-limit classification,
   output sanitization from internal/llm/client.go), the scraper
   extraction functions (internal/scraper/scraper.go) and the
   orchestrator state transitions (internal/browser/app.go). -/

namespace Chimera

/-- Go strings modelled as lists of runes (Unicode code points). -/
abbrev Str := List Char

/-- Mirrors Go `unicode.IsSpace`: Latin-1 whitespace plus the Unicode
White_Space code points. -/
def goIsSpace (c : Char) : Bool :=
  c == '\t' || c == '\n' || c == '\x0b' || c == '\x0c' || c == '\r' || c == ' ' ||
  c == '\u0085' || c == ' ' || c == ' ' ||
  (' ' ≤ c && c ≤ ' ') || c == ' ' || c == ' ' ||
  c == ' ' || c == ' ' || c == '　'

/-- Mirrors Go `strings.HasPrefix`. -/
def hasPfx (s pre : Str) : Bool := pre.isPrefixOf s

/-- Mirrors Go `strings.HasSuffix`. -/
def hasSfx (s suf : Str) : Bool := suf.isSuffixOf s

/-- Mirrors Go `strings.TrimPrefix`. -/
def trimPfx (s pre : Str) : Str := if hasPfx s pre then s.drop pre.length else s

/-- Drops the longest run of characters satisfying `p` from the right end
(used to model Go `strings.TrimRight` and the right half of `TrimSpace`). -/
def dropRightWhile (p : Char → Bool) (s : Str) : Str := (s.reverse.dropWhile p).reverse

/-- Mirrors Go `strings.TrimSpace`. -/
def trimSpace (s : Str) : Str := dropRightWhile goIsSpace (s.dropWhile goIsSpace)

/-- Mirrors Go `strings.TrimRight(s, "/")`. -/
def trimRightSlash (s : Str) : Str := dropRightWhile (fun c => c == '/') s

theorem hasPfx_iff {s pre : Str} : hasPfx s pre = true ↔ pre <+: s := by
  simp [hasPfx, List.isPrefixOf_iff_prefix]

theorem hasSfx_iff {s suf : Str} : hasSfx s suf = true ↔ suf <:+ s := by
  simp [hasSfx, List.isSuffixOf_iff_suffix]

theorem dropWhile_idem (p : Char → Bool) (l : Str) :
    (l.dropWhile p).dropWhile p = l.dropWhile p := by
  induction l with
  | nil => rfl
  | cons a l ih =>
    by_cases h : p a = true
    · simp [List.dropWhile_cons, h, ih]
    · simp [List.dropWhile_cons, h]

theorem dropRightWhile_idem (p : Char → Bool) (s : Str) :
    dropRightWhile p (dropRightWhile p s) = dropRightWhile p s := by
  simp [dropRightWhile, dropWhile_idem]

theorem dropWhile_suffix_self (p : Char → Bool) (l : Str) : l.dropWhile p <:+ l := by
  induction l with
  | nil => exact List.suffix_refl _
  | cons a l ih =>
    by_cases h : p a = true
    · simpa [List.dropWhile_cons, h] using ih.trans (List.suffix_cons a l)
    · simp [List.dropWhile_cons, h]

theorem dropRightWhile_prefix_self (p : Char → Bool) (s : Str) :
    dropRightWhile p s <+: s := by
  have h := dropWhile_suffix_self p s.reverse
  obtain ⟨t, ht⟩ := h
  refine ⟨t.reverse, ?_⟩
  have : (t ++ s.reverse.dropWhile p).reverse = s.reverse.reverse := by rw [ht]
  simpa [dropRightWhile, List.reverse_append] using this

theorem trimSpace_infix_self (s : Str) : trimSpace s <:+: s := by
  have h1 : trimSpace s <+: s.dropWhile goIsSpace := dropRightWhile_prefix_self _ _
  have h2 : s.dropWhile goIsSpace <:+ s := dropWhile_suffix_self _ _
  obtain ⟨t, ht⟩ := h1
  obtain ⟨u, hu⟩ := h2
  exact ⟨u, t, by rw [List.append_assoc, ht, hu]⟩

theorem dropWhile_eq_self_of_pfx (p : Char → Bool) {l m : Str}
    (hl : l.dropWhile p = l) (hm : m <+: l) : m.dropWhile p = m := by
  cases m with
  | nil => rfl
  | cons a u =>
    obtain ⟨r, hr⟩ := hm
    by_cases ha : p a = true
    · exfalso
      have h1 : l.dropWhile p = (u ++ r).dropWhile p := by
        rw [← hr]; simp [List.dropWhile_cons, ha]
      rw [hl] at h1
      have h3 : ((u ++ r).dropWhile p).length ≤ (u ++ r).length :=
        (dropWhile_suffix_self p (u ++ r)).sublist.length_le
      rw [← h1, ← hr] at h3
      simp at h3
    · simp [List.dropWhile_cons, ha]

theorem trimSpace_idem (s : Str) : trimSpace (trimSpace s) = trimSpace s := by
  unfold trimSpace
  rw [dropWhile_eq_self_of_pfx goIsSpace (dropWhile_idem goIsSpace s)
    (dropRightWhile_prefix_self goIsSpace (s.dropWhile goIsSpace)), dropRightWhile_idem]

namespace Llm

/-- The literal `"/v1"` from `completionsURL`. -/
def v1Seg : Str := ['/', 'v', '1']

/-- The literal `"/chat/completions"` from `completionsURL`. -/
def chatSeg : Str := ['/', 'c', 'h', 'a', 't', '/', 'c', 'o', 'm', 'p', 'l', 'e', 't', 'i', 'o', 'n', 's']

/-- The literal `"/v1/chat/completions"` from `completionsURL`. -/
def fullSeg : Str := ['/', 'v', '1', '/', 'c', 'h', 'a', 't', '/', 'c', 'o', 'm', 'p', 'l', 'e', 't', 'i', 'o', 'n', 's']

theorem fullSeg_eq : fullSeg = v1Seg ++ chatSeg := rfl

/-- Mirrors `(*Client).completionsURL` from internal/llm/client.go:
empty base stays empty; a base already ending in `/v1/chat/completions`
is used as-is; otherwise trailing slashes are trimmed and either
`/chat/completions` (when the base ends in `/v1`) or the full
`/v1/chat/completions` suffix is appended. -/
def completionsURL (baseURL : Str) : Str :=
  if baseURL = [] then []
  else if hasSfx baseURL fullSeg then baseURL
  else
    let trimmed := trimRightSlash baseURL
    if hasSfx trimmed v1Seg then trimmed ++ chatSeg
    else trimmed ++ fullSeg

theorem completionsURL_hasSfx (s : Str) (h : s ≠ []) :
    fullSeg <:+ completionsURL s := by
  unfold completionsURL
  rw [if_neg h]
  by_cases h1 : hasSfx s fullSeg = true
  · rw [if_pos h1]; exact hasSfx_iff.mp h1
  · rw [if_neg h1]
    by_cases h2 : hasSfx (trimRightSlash s) v1Seg = true
    · simp only [if_pos h2]
      obtain ⟨t, ht⟩ := hasSfx_iff.mp h2
      exact ⟨t, by rw [fullSeg_eq, ← List.append_assoc, ht]⟩
    · simp only [if_neg h2]
      exact List.suffix_append _ _

theorem completionsURL_of_full_sfx (y : Str) (hne : y ≠ []) (h : hasSfx y fullSeg = true) :
    completionsURL y = y := by
  unfold completionsURL
  rw [if_neg hne, if_pos h]

/-- C3: endpoint normalization is idempotent — for every base URL string,
`completionsURL (completionsURL x) = completionsURL x`. -/
theorem completionsURL_idempotent (x : Str) :
    completionsURL (completionsURL x) = completionsURL x := by
  by_cases hx : x = []
  · subst hx; rfl
  · have hs := completionsURL_hasSfx x hx
    have hne : completionsURL x ≠ [] := by
      intro h
      rw [h] at hs
      have h2 : fullSeg = [] := List.suffix_nil.mp hs
      simp [fullSeg] at h2
    exact completionsURL_of_full_sfx _ hne (hasSfx_iff.mpr hs)

/-- The code-fence marker literal "```" from `sanitizeLLMOutput`. -/
def fenceTok : Str := ['`', '`', '`']

/-- The language-tag literal "html" from `sanitizeLLMOutput`. -/
def htmlTok : Str := ['h', 't', 'm', 'l']

/-- Cuts the string before the first occurrence of the fence marker;
mirrors `strings.Index(trimmed, "` + "`" + `")` followed by the
`trimmed = trimmed[:idx]` slice (the string is unchanged when no
occurrence exists, exactly as when `Index` returns -1). -/
def cutAtFence : Str → Str
  | [] => []
  | c :: tl => if hasPfx (c :: tl) fenceTok then [] else c :: cutAtFence tl

/-- The optional language-tag strip inside `sanitizeLLMOutput`:
`if strings.HasPrefix(trimmed, "html") ...`. -/
def stripHtmlTag (s : Str) : Str :=
  if hasPfx s htmlTok then trimSpace (trimPfx s htmlTok) else s

/-- Mirrors `sanitizeLLMOutput` from internal/llm/client.go: trim; if the
result does not start with the fence marker return it; otherwise strip the
leading fence, trim, optionally strip an "html" language tag (trimming
again), truncate at the next fence marker, and trim once more. -/
def sanitizeLLMOutput (content : Str) : Str :=
  if hasPfx (trimSpace content) fenceTok then
    trimSpace (cutAtFence (stripHtmlTag (trimSpace (trimPfx (trimSpace content) fenceTok))))
  else trimSpace content

theorem cutAtFence_prefix_self (s : Str) : cutAtFence s <+: s := by
  induction s with
  | nil => exact List.prefix_refl _
  | cons c tl ih =>
    by_cases h : hasPfx (c :: tl) fenceTok = true
    · simp [cutAtFence, h]
    · have he : cutAtFence (c :: tl) = c :: cutAtFence tl := by
        simp only [cutAtFence]
        rw [if_neg h]
      rw [he]
      exact List.cons_prefix_cons.mpr ⟨rfl, ih⟩

theorem not_fence_infix_cutAtFence (s : Str) : ¬ fenceTok <:+: cutAtFence s := by
  induction s with
  | nil => simp [cutAtFence, fenceTok]
  | cons c tl ih =>
    by_cases h : hasPfx (c :: tl) fenceTok = true
    · simp only [cutAtFence, h, if_true]
      simp [fenceTok]
    · have he : cutAtFence (c :: tl) = c :: cutAtFence tl := by
        simp only [cutAtFence]
        rw [if_neg h]
      rw [he]
      intro hinf
      rcases List.infix_cons_iff.mp hinf with hp | hi
      · have hfull : fenceTok <+: c :: tl :=
          hp.trans ((List.cons_prefix_cons).mpr ⟨rfl, cutAtFence_prefix_self tl⟩)
        exact h (hasPfx_iff.mpr hfull)
      · exact ih hi

theorem sanitize_fixed (s : Str) :
    trimSpace (sanitizeLLMOutput s) = sanitizeLLMOutput s ∧
    hasPfx (sanitizeLLMOutput s) fenceTok = false := by
  unfold sanitizeLLMOutput
  by_cases h : hasPfx (trimSpace s) fenceTok = true
  · rw [if_pos h]
    refine ⟨trimSpace_idem _, ?_⟩
    rw [Bool.eq_false_iff]
    intro hpfx
    have hinf : fenceTok <:+:
        cutAtFence (stripHtmlTag (trimSpace (trimPfx (trimSpace s) fenceTok))) :=
      (hasPfx_iff.mp hpfx).isInfix.trans (trimSpace_infix_self _)
    exact not_fence_infix_cutAtFence _ hinf
  · rw [if_neg h]
    exact ⟨trimSpace_idem _, Bool.eq_false_iff.mpr h⟩

/-- C10: the LLM output sanitizer is idempotent — re-sanitizing any
sanitized output returns it unchanged, and the sanitized output never
begins with a code-fence marker. -/
theorem sanitizeLLMOutput_idempotent (s : Str) :
    sanitizeLLMOutput (sanitizeLLMOutput s) = sanitizeLLMOutput s ∧
    hasPfx (sanitizeLLMOutput s) fenceTok = false := by
  obtain ⟨h1, h2⟩ := sanitize_fixed s
  refine ⟨?_, h2⟩
  generalize hE : sanitizeLLMOutput s = o at h1 h2 ⊢
  unfold sanitizeLLMOutput
  rw [h1, h2]
  simp

theorem dropWhile_cons_of_false {p : Char → Bool} {a : Char} (l : Str) (h : p a = false) :
    (a :: l).dropWhile p = a :: l := by
  simp [List.dropWhile_cons, h]

theorem dropRightWhile_snoc_of_false {p : Char → Bool} {c : Char} (l : Str) (h : p c = false) :
    dropRightWhile p (l ++ [c]) = l ++ [c] := by
  simp [dropRightWhile, List.dropWhile_cons, h]

theorem dropWhile_append_cons {p : Char → Bool} (l r : Str) {c : Char} (h : p c = false) :
    (l ++ c :: r).dropWhile p = l.dropWhile p ++ c :: r := by
  induction l with
  | nil => simp [List.dropWhile_cons, h]
  | cons a l ih =>
    by_cases ha : p a = true
    · simp [List.dropWhile_cons, ha, ih]
    · simp [List.dropWhile_cons, ha]

theorem trimSpace_append_fence (l : Str) :
    trimSpace (l ++ fenceTok) = l.dropWhile goIsSpace ++ fenceTok := by
  unfold trimSpace
  rw [show fenceTok = '`' :: ['`', '`'] from rfl, dropWhile_append_cons l _ (by decide)]
  rw [show l.dropWhile goIsSpace ++ '`' :: ['`', '`']
      = (l.dropWhile goIsSpace ++ ['`', '`']) ++ ['`'] from by simp]
  rw [dropRightWhile_snoc_of_false _ (by decide)]

theorem cutAtFence_append_fence (t : Str) (h : '`' ∉ t) : cutAtFence (t ++ fenceTok) = t := by
  induction t with
  | nil => decide
  | cons c t' ih =>
    have hc : c ≠ '`' := fun he => h (he ▸ List.mem_cons_self c t')
    have hnp : hasPfx (c :: (t' ++ fenceTok)) fenceTok = false := by
      rw [Bool.eq_false_iff]
      intro hp
      have hp2 := hasPfx_iff.mp hp
      rw [show fenceTok = '`' :: ['`', '`'] from rfl] at hp2
      exact hc (List.cons_prefix_cons.mp hp2).1.symm
    have he : cutAtFence (c :: (t' ++ fenceTok)) = c :: cutAtFence (t' ++ fenceTok) := by
      simp only [cutAtFence]
      rw [hnp]
      simp
    rw [List.cons_append, he, ih (fun hm => h (List.mem_cons_of_mem _ hm))]

/-- C4: sanitization behaviour — content whose trim does not start with a
code-fence marker is returned unchanged after trimming, and content wrapped
in a fenced block with the "html" language tag (the inner content free of
backticks) yields the inner content trimmed. -/
theorem sanitizeLLMOutput_spec :
    (∀ s : Str, hasPfx (trimSpace s) fenceTok = false → sanitizeLLMOutput s = trimSpace s) ∧
    (∀ inner : Str, '`' ∉ inner →
      sanitizeLLMOutput (fenceTok ++ htmlTok ++ '\n' :: (inner ++ fenceTok)) =
        trimSpace inner) := by
  constructor
  · intro s h
    unfold sanitizeLLMOutput
    rw [h]
    simp
  · intro inner hmem
    unfold sanitizeLLMOutput
    have hTrim : trimSpace (fenceTok ++ htmlTok ++ '\n' :: (inner ++ fenceTok))
        = fenceTok ++ htmlTok ++ '\n' :: (inner ++ fenceTok) := by
      rw [show fenceTok ++ htmlTok ++ '\n' :: (inner ++ fenceTok)
          = (fenceTok ++ htmlTok ++ '\n' :: inner) ++ fenceTok from by simp]
      rw [trimSpace_append_fence]
      rw [show fenceTok ++ htmlTok ++ '\n' :: inner
          = '`' :: ('`' :: '`' :: (htmlTok ++ '\n' :: inner)) from rfl]
      rw [dropWhile_cons_of_false _ (by decide)]
    rw [hTrim]
    have hPfx : hasPfx (fenceTok ++ htmlTok ++ '\n' :: (inner ++ fenceTok)) fenceTok = true :=
      hasPfx_iff.mpr (List.prefix_append _ _)
    rw [if_pos hPfx]
    have hTP : trimPfx (fenceTok ++ htmlTok ++ '\n' :: (inner ++ fenceTok)) fenceTok
        = htmlTok ++ '\n' :: (inner ++ fenceTok) := by
      unfold trimPfx
      rw [if_pos hPfx]
      exact List.drop_left _ _
    rw [hTP]
    have hTrim2 : trimSpace (htmlTok ++ '\n' :: (inner ++ fenceTok))
        = htmlTok ++ '\n' :: (inner ++ fenceTok) := by
      rw [show htmlTok ++ '\n' :: (inner ++ fenceTok)
          = (htmlTok ++ '\n' :: inner) ++ fenceTok from by simp]
      rw [trimSpace_append_fence]
      rw [show htmlTok ++ '\n' :: inner
          = 'h' :: ('t' :: 'm' :: 'l' :: '\n' :: inner) from rfl]
      rw [dropWhile_cons_of_false _ (by decide)]
    rw [hTrim2]
    have hPfx2 : hasPfx (htmlTok ++ '\n' :: (inner ++ fenceTok)) htmlTok = true :=
      hasPfx_iff.mpr (List.prefix_append _ _)
    have hSHT : stripHtmlTag (htmlTok ++ '\n' :: (inner ++ fenceTok))
        = inner.dropWhile goIsSpace ++ fenceTok := by
      unfold stripHtmlTag trimPfx
      rw [if_pos hPfx2, if_pos hPfx2, List.drop_left]
      rw [show '\n' :: (inner ++ fenceTok) = ('\n' :: inner) ++ fenceTok from rfl]
      rw [trimSpace_append_fence]
      rw [show ('\n' :: inner).dropWhile goIsSpace = inner.dropWhile goIsSpace from by
        rw [List.dropWhile_cons, if_pos (show goIsSpace '\n' = true from by decide)]]
    rw [hSHT]
    have hCut : cutAtFence (inner.dropWhile goIsSpace ++ fenceTok) = inner.dropWhile goIsSpace :=
      cutAtFence_append_fence _
        (fun hm => hmem ((dropWhile_suffix_self goIsSpace inner).sublist.subset hm))
    rw [hCut]
    unfold trimSpace
    rw [dropWhile_idem]

theorem sanitizeLLMOutput_spec_witness :
    sanitizeLLMOutput ("  hello  ".toList) = trimSpace ("  hello  ".toList) ∧
    sanitizeLLMOutput (fenceTok ++ htmlTok ++ '\n' :: ("<p>hi</p>".toList ++ fenceTok)) =
      trimSpace ("<p>hi</p>".toList) :=
  ⟨sanitizeLLMOutput_spec.1 _ (by decide), sanitizeLLMOutput_spec.2 _ (by decide)⟩

end Llm

namespace Scraper

/-- A heading with its level, as in scraper.go `Heading`. -/
structure Heading where
  level : Nat
  text : Str
deriving DecidableEq

/-- A hyperlink, as in scraper.go `Link`. -/
structure Link where
  text : Str
  href : Str
deriving DecidableEq

/-- An `a[href]` element of the parsed document: its href attribute and its text. -/
structure Anchor where
  href : Str
  text : Str
deriving DecidableEq

/-- The parsed HTML document abstracted to what the collectors consume: the
raw texts of the h1, h2, h3 and p elements and the anchors carrying an
href attribute, each list in document order as goquery `Find(...).Each`
traverses them. -/
structure HtmlDoc where
  h1 : List Str
  h2 : List Str
  h3 : List Str
  ps : List Str
  anchors : List Anchor

/-- One iteration of the level loop in `collectHeadings`: trim each heading
text, skip empties, record the level. -/
def levelBlock (level : Nat) (texts : List Str) : List Heading :=
  texts.filterMap (fun t => if trimSpace t = [] then none else some ⟨level, trimSpace t⟩)

/-- Mirrors `collectHeadings` from internal/scraper/scraper.go: levels 1, 2, 3
in that order, each level's non-empty trimmed texts in document order, the
concatenation truncated to `limit` when longer. -/
def collectHeadings (doc : HtmlDoc) (limit : Nat) : List Heading :=
  let hs := levelBlock 1 doc.h1 ++ levelBlock 2 doc.h2 ++ levelBlock 3 doc.h3
  if limit < hs.length then hs.take limit else hs

/-- Number of bytes in the UTF-8 encoding of one rune. -/
def utf8Size (c : Char) : Nat :=
  if c.toNat < 0x80 then 1 else if c.toNat < 0x800 then 2
  else if c.toNat < 0x10000 then 3 else 4

/-- Byte length of a Go string: `len(s)` counts UTF-8 bytes, not runes. -/
def utf8Len (s : Str) : Nat := (s.map utf8Size).sum

/-- Mirrors `collectParagraphs` from internal/scraper/scraper.go: the trimmed
text of each p element is kept when `len(text) >= 40` (Go `len`, i.e. UTF-8
bytes), in document order, truncated to `limit` when longer. -/
def collectParagraphs (doc : HtmlDoc) (limit : Nat) : List Str :=
  let paragraphs := doc.ps.filterMap (fun t =>
    if utf8Len (trimSpace t) < 40 then none else some (trimSpace t))
  if limit < paragraphs.length then paragraphs.take limit else paragraphs

/-- The anchor loop of `collectLinks`: `seen` is the dedup set (href keys),
`acc` the output so far; `resolve` abstracts `base.Parse` with its raw-href
fallback (resolution of a trimmed href against the document URL). -/
def collectLinksLoop (resolve : Str → Str) : List Anchor → List Str → List Link → List Link
  | [], _, acc => acc
  | a :: rest, seen, acc =>
    if trimSpace a.href = [] then collectLinksLoop resolve rest seen acc
    else
      let resolved := resolve (trimSpace a.href)
      if resolved ∈ seen then collectLinksLoop resolve rest seen acc
      else
        let text := if trimSpace a.text = [] then resolved else trimSpace a.text
        collectLinksLoop resolve rest (resolved :: seen) (acc ++ [⟨text, resolved⟩])

/-- The comparison of `sort.SliceStable(links, ...Text < ...Text)`: display
texts ordered lexicographically (bytewise UTF-8 order on Go strings equals
code-point order, which is the `List Char` lexicographic order). -/
def linkLE (x y : Link) : Prop := x.text ≤ y.text

instance : DecidableRel linkLE := fun x y => (inferInstance : Decidable (x.text ≤ y.text))

instance : IsTotal Link linkLE := ⟨fun x y => le_total x.text y.text⟩

instance : IsTrans Link linkLE := ⟨fun _ _ _ h1 h2 => le_trans h1 h2⟩

/-- Mirrors `collectLinks` from internal/scraper/scraper.go: dedup loop in
document order, truncation to `limit` when longer, then the stable sort by
display text (a stable sort's output is unique, so insertion sort that keeps
an earlier element in front of later equal ones models `sort.SliceStable`). -/
def collectLinks (resolve : Str → Str) (anchors : List Anchor) (limit : Nat) : List Link :=
  let links := collectLinksLoop resolve anchors [] []
  let truncated := if limit < links.length then links.take limit else links
  List.insertionSort linkLE truncated

/-- C5: extracted headings are the level-1 block, then level-2, then level-3
(each block the non-empty-after-trim texts of that level in document order),
truncated to the cap; when the pre-truncation count exceeds the cap the
result length equals the cap; a page with three h1 elements and cap 2 yields
exactly the first two h1 texts and nothing else. -/
theorem collectHeadings_spec (doc : HtmlDoc) (limit : Nat) :
    collectHeadings doc limit
      = (levelBlock 1 doc.h1 ++ levelBlock 2 doc.h2 ++ levelBlock 3 doc.h3).take limit
    ∧ (limit < (levelBlock 1 doc.h1 ++ levelBlock 2 doc.h2 ++ levelBlock 3 doc.h3).length →
        (collectHeadings doc limit).length = limit)
    ∧ (∀ t1 t2 t3 : Str, trimSpace t1 ≠ [] → trimSpace t2 ≠ [] → trimSpace t3 ≠ [] →
        collectHeadings ⟨[t1, t2, t3], doc.h2, doc.h3, doc.ps, doc.anchors⟩ 2
          = [⟨1, trimSpace t1⟩, ⟨1, trimSpace t2⟩]) := by
  have hmain : ∀ d : HtmlDoc, ∀ n : Nat, collectHeadings d n
      = (levelBlock 1 d.h1 ++ levelBlock 2 d.h2 ++ levelBlock 3 d.h3).take n := by
    intro d n
    unfold collectHeadings
    by_cases h : n < (levelBlock 1 d.h1 ++ levelBlock 2 d.h2 ++ levelBlock 3 d.h3).length
    · rw [if_pos h]
    · rw [if_neg h, List.take_of_length_le (Nat.le_of_not_lt h)]
  refine ⟨hmain doc limit, ?_, ?_⟩
  · intro h
    rw [hmain doc limit, List.length_take]
    omega
  · intro t1 t2 t3 h1 h2 h3
    rw [hmain]
    have hb : levelBlock 1 [t1, t2, t3]
        = [⟨1, trimSpace t1⟩, ⟨1, trimSpace t2⟩, ⟨1, trimSpace t3⟩] := by
      simp [levelBlock, h1, h2, h3]
    simp [hb, List.take]

theorem collectHeadings_spec_witness :
    collectHeadings ⟨["A".toList, "B".toList, "C".toList], [], [], [], []⟩ 2
      = [⟨1, trimSpace ("A".toList)⟩, ⟨1, trimSpace ("B".toList)⟩] ∧
    (collectHeadings ⟨["A".toList, "B".toList, "C".toList], [], [], [], []⟩ 2).length = 2 :=
  ⟨(collectHeadings_spec ⟨[], [], [], [], []⟩ 2).2.2 _ _ _ (by decide) (by decide) (by decide),
   (collectHeadings_spec ⟨["A".toList, "B".toList, "C".toList], [], [], [], []⟩ 2).2.1
     (by decide)⟩

/-- C7 counterexample: a p element of twenty two-byte runes (é) has trimmed
rune count 20 < 40, so the claim ("length is ≥40 characters", shorter ones
dropped) says it is dropped; the code keeps it because Go `len` counts UTF-8
bytes and the text is 40 bytes long. -/
theorem collectParagraphs_counterexample :
    collectParagraphs ⟨[], [], [], [List.replicate 20 'é'], []⟩ 10
      = [List.replicate 20 'é'] ∧
    (trimSpace (List.replicate 20 'é')).length < 40 := by decide

/-- C7 (amended): extracted paragraphs are exactly the p elements whose
trimmed text is at least 40 UTF-8 bytes long (Go `len`), in document order,
truncated to the item cap; every shorter p element is silently dropped. -/
theorem collectParagraphs_spec (doc : HtmlDoc) (limit : Nat) :
    collectParagraphs doc limit
      = ((doc.ps.map trimSpace).filter (fun t => 40 ≤ utf8Len t)).take limit
    ∧ (∀ x ∈ collectParagraphs doc limit, 40 ≤ utf8Len x) := by
  have hfm : ∀ ps : List Str,
      ps.filterMap (fun t => if utf8Len (trimSpace t) < 40 then none else some (trimSpace t))
        = (ps.map trimSpace).filter (fun t => 40 ≤ utf8Len t) := by
    intro ps
    induction ps with
    | nil => rfl
    | cons a l ih =>
      by_cases h : utf8Len (trimSpace a) < 40
      · have h' : ¬ 40 ≤ utf8Len (trimSpace a) := by omega
        simp [List.filterMap_cons, List.filter_cons, h, h', ih]
      · have h' : 40 ≤ utf8Len (trimSpace a) := by omega
        simp [List.filterMap_cons, List.filter_cons, h, h', ih]
  have hmain : collectParagraphs doc limit
      = ((doc.ps.map trimSpace).filter (fun t => 40 ≤ utf8Len t)).take limit := by
    unfold collectParagraphs
    rw [hfm]
    by_cases h : limit < ((doc.ps.map trimSpace).filter (fun t => 40 ≤ utf8Len t)).length
    · rw [if_pos h]
    · rw [if_neg h, List.take_of_length_le (Nat.le_of_not_lt h)]
  refine ⟨hmain, ?_⟩
  intro x hx
  rw [hmain] at hx
  have hx2 := (List.take_sublist _ _).subset hx
  have := List.mem_filter.mp hx2
  simpa using this.2

theorem collectParagraphs_spec_witness :
    List.replicate 40 'x'
      ∈ collectParagraphs ⟨[], [], [], [List.replicate 40 'x', List.replicate 5 'y'], []⟩ 10 ∧
    40 ≤ utf8Len (List.replicate 40 'x') :=
  ⟨by decide,
   (collectParagraphs_spec ⟨[], [], [], [List.replicate 40 'x', List.replicate 5 'y'], []⟩ 10).2
     (List.replicate 40 'x') (by decide)⟩

theorem filter_orderedInsert (t : Str) (x : Link) (l : List Link) :
    (l.orderedInsert linkLE x).filter (fun y => decide (y.text = t))
      = (x :: l).filter (fun y => decide (y.text = t)) := by
  induction l with
  | nil => rfl
  | cons y ys ih =>
    by_cases hxy : linkLE x y
    · simp [List.orderedInsert, hxy]
    · have hxy' : ¬ x.text ≤ y.text := fun hc => hxy hc
      have hne : x.text ≠ y.text := fun he => hxy' (le_of_eq he)
      simp only [List.orderedInsert, if_neg hxy, List.filter_cons]
      simp only [ih, List.filter_cons]
      by_cases hyt : y.text = t
      · have hxt : ¬ x.text = t := fun he => hne (he.trans hyt.symm)
        simp [hyt, hxt]
      · by_cases hxt : x.text = t
        · simp [hyt, hxt]
        · simp [hyt, hxt]

theorem filter_insertionSort (t : Str) (l : List Link) :
    (List.insertionSort linkLE l).filter (fun y => decide (y.text = t))
      = l.filter (fun y => decide (y.text = t)) := by
  induction l with
  | nil => rfl
  | cons x xs ih =>
    simp only [List.insertionSort]
    rw [filter_orderedInsert]
    simp only [List.filter_cons, ih]

/-- C6: extracted links are deduplicated by resolved href keeping the first
occurrence's display text (with the resolved href as display text when the
anchor text is empty), truncated to the cap BEFORE sorting (the output is a
permutation of the truncated dedup-loop output), and the final sequence is
sorted ascending by display text with a stable sort (the sub-sequence of
entries of any fixed display text is exactly that of the pre-sort sequence);
two anchors resolving to the same absolute href yield one entry using the
first anchor's display text. -/
theorem collectLinks_spec (resolve : Str → Str) (anchors : List Anchor) (limit : Nat) :
    (collectLinks resolve anchors limit).Perm
      (if limit < (collectLinksLoop resolve anchors [] []).length
        then (collectLinksLoop resolve anchors [] []).take limit
        else collectLinksLoop resolve anchors [] [])
    ∧ List.Sorted linkLE (collectLinks resolve anchors limit)
    ∧ (∀ t : Str, (collectLinks resolve anchors limit).filter (fun y => decide (y.text = t))
        = (if limit < (collectLinksLoop resolve anchors [] []).length
            then (collectLinksLoop resolve anchors [] []).take limit
            else collectLinksLoop resolve anchors [] []).filter (fun y => decide (y.text = t)))
    ∧ (∀ a1 a2 : Anchor, trimSpace a1.href ≠ [] → trimSpace a2.href ≠ [] →
        resolve (trimSpace a1.href) = resolve (trimSpace a2.href) → 1 ≤ limit →
        collectLinks resolve [a1, a2] limit
          = [⟨if trimSpace a1.text = [] then resolve (trimSpace a1.href) else trimSpace a1.text,
              resolve (trimSpace a1.href)⟩]) := by
  refine ⟨?_, ?_, ?_, ?_⟩
  · unfold collectLinks
    exact List.perm_insertionSort linkLE _
  · unfold collectLinks
    exact List.sorted_insertionSort linkLE _
  · intro t
    unfold collectLinks
    exact filter_insertionSort t _
  · intro a1 a2 h1 h2 heq hlim
    unfold collectLinks
    have hloop : collectLinksLoop resolve [a1, a2] [] []
        = [⟨if trimSpace a1.text = [] then resolve (trimSpace a1.href) else trimSpace a1.text,
            resolve (trimSpace a1.href)⟩] := by
      simp [collectLinksLoop, h1, h2, heq]
    rw [hloop]
    have hlz : ¬ limit = 0 := by omega
    simp [hlz, List.insertionSort, List.orderedInsert]

theorem collectLinks_spec_witness :
    collectLinks (fun s => s) [⟨"a".toList, "x".toList⟩, ⟨"a".toList, "y".toList⟩] 10
      = [⟨"x".toList, "a".toList⟩] := by
  have h := (collectLinks_spec (fun s => s) [] 10).2.2.2 ⟨"a".toList, "x".toList⟩
    ⟨"a".toList, "y".toList⟩ (by decide) (by decide) (by decide) (by decide)
  exact h.trans (by decide)

end Scraper

namespace Llm

/-- The error values `GeneratePage` can return: a `*HTTPError` carrying the
non-2xx status and a body snippet, or any other (wrapped) error with its
message. `errors.As` in `IsRateLimited` finds exactly the `HTTPError` case. -/
inductive GoError
  | httpError (status : Nat) (body : Str)
  | other (msg : Str)
deriving DecidableEq

/-- Mirrors `IsRateLimited` from internal/llm/client.go: true exactly on an
`HTTPError` whose status is 429 (`http.StatusTooManyRequests`). -/
def IsRateLimited : GoError → Bool
  | .httpError status _ => status == 429
  | .other _ => false

/-- The message of a composer error: `HTTPError.Error()` formats
"llm returned status %d"; other errors carry their own message. -/
def errMsg : GoError → Str
  | .httpError status _ => "llm returned status ".toList ++ (toString status).toList
  | .other msg => msg

end Llm

namespace Browser

/-- The mutex-guarded session fields of `App` from internal/browser/app.go
that the orchestrator logic reads and writes, with the availability of the
current LLM client (`llmClient != nil && llmClient.Available()`, i.e. a
client with a non-empty configured base URL) recorded as a flag. -/
structure AppState where
  llmLastMode : Bool
  llmLastSet : Bool
  llmPreferred : Bool
  lastSource : Str
  llmAvailable : Bool
deriving DecidableEq

/-- Mirrors `setLastMode`: records the mode and marks the sticky flag set. -/
def setLastMode (st : AppState) (use : Bool) : AppState :=
  { st with llmLastMode := use, llmLastSet := true }

/-- Mirrors `setLastSource`: stores the TrimSpace of the source URL. -/
def setLastSource (st : AppState) (src : Str) : AppState :=
  { st with lastSource := trimSpace src }

/-- Mirrors `navigationMode`: with the sticky flag set, composed only when
the recorded mode is composed and the client is available; otherwise the
default preference gated by availability. -/
def navigationMode (st : AppState) : Bool :=
  if st.llmLastSet then st.llmLastMode && st.llmAvailable
  else st.llmPreferred && st.llmAvailable

/-- The state-touching steps of the `OnNavigate` callback in `activate`
(app.go): compute the effective mode via `navigationMode`, then record it
via `setLastMode`; returns the effective mode passed to `handleScrape` and
the state afterwards. -/
def navRecordMode (st : AppState) : Bool × AppState :=
  (navigationMode st, setLastMode st (navigationMode st))

/-- scraper.Result as the orchestrator consumes it (FetchedAt omitted:
no claim mentions it). -/
structure ScrapeResult where
  sourceURL : Str
  title : Str
  description : Str
  headings : List Scraper.Heading
  paragraphs : List Str
  links : List Scraper.Link
deriving DecidableEq

/-- What `handleScrape` dispatches to the rendering surface: `renderHTML`
content, or the `renderError` page carrying a message. -/
inductive RenderOutcome
  | html (content : Str)
  | errorPage (msg : Str)
deriving DecidableEq

/-- The template tail of `handleScrape`: `renderSimple` (html/template
execution, abstracted as `renderSimpleF`) may fail, giving the
"Render error" page. -/
def renderFallback (st : AppState) (result : ScrapeResult)
    (renderSimpleF : ScrapeResult → Except Str Str) : AppState × RenderOutcome :=
  match renderSimpleF result with
  | .ok h => (st, .html h)
  | .error e => (st, .errorPage ("Render error: ".toList ++ e))

/-- Mirrors `handleScrape` from internal/browser/app.go, with the network
collaborators passed as their results: `scrape` the Extractor outcome,
`llmResult` the `GeneratePage` outcome (consulted only on the composed
path), `renderSimpleF` the deterministic template transform. -/
def handleScrape (st : AppState) (useLLM : Bool)
    (scrape : Except Str ScrapeResult) (llmResult : Except Llm.GoError Str)
    (renderSimpleF : ScrapeResult → Except Str Str) : AppState × RenderOutcome :=
  match scrape with
  | .error e => (st, .errorPage ("Scrape failed: ".toList ++ e))
  | .ok result =>
    let st1 := setLastSource st result.sourceURL
    if useLLM && st1.llmAvailable then
      match llmResult with
      | .ok html => (st1, .html html)
      | .error err =>
        if Llm.IsRateLimited err then
          renderFallback (setLastMode st1 false) result renderSimpleF
        else (st1, .errorPage ("LLM fallback: ".toList ++ Llm.errMsg err))
    else renderFallback st1 result renderSimpleF

/-- C1: in composed mode with an available composer, a 429 (rate-limited)
composer failure forces the sticky mode to template and falls through to
the deterministic template render; any other composer failure surfaces as
an error page — the template is not rendered and the sticky mode is not
touched. -/
theorem handleScrape_rate_limit_asymmetry (st : AppState) (result : ScrapeResult)
    (body : Str) (err : Llm.GoError) (renderSimpleF : ScrapeResult → Except Str Str)
    (hav : st.llmAvailable = true) (hnr : Llm.IsRateLimited err = false) :
    handleScrape st true (.ok result) (.error (.httpError 429 body)) renderSimpleF
      = renderFallback (setLastMode (setLastSource st result.sourceURL) false)
          result renderSimpleF
    ∧ ((handleScrape st true (.ok result) (.error (.httpError 429 body))
          renderSimpleF).1.llmLastMode = false
       ∧ (handleScrape st true (.ok result) (.error (.httpError 429 body))
          renderSimpleF).1.llmLastSet = true)
    ∧ handleScrape st true (.ok result) (.error err) renderSimpleF
      = (setLastSource st result.sourceURL,
          .errorPage ("LLM fallback: ".toList ++ Llm.errMsg err)) := by
  have h429 : Llm.IsRateLimited (.httpError 429 body) = true := rfl
  have hA : handleScrape st true (.ok result) (.error (.httpError 429 body)) renderSimpleF
      = renderFallback (setLastMode (setLastSource st result.sourceURL) false)
          result renderSimpleF := by
    simp [handleScrape, setLastSource, hav, h429]
  refine ⟨hA, ⟨?_, ?_⟩, ?_⟩
  · rw [hA]
    cases hr : renderSimpleF result <;>
      simp [renderFallback, hr, setLastMode]
  · rw [hA]
    cases hr : renderSimpleF result <;>
      simp [renderFallback, hr, setLastMode]
  · simp [handleScrape, setLastSource, hav, hnr]

theorem handleScrape_rate_limit_asymmetry_witness :
    handleScrape ⟨true, true, false, [], true⟩ true
        (.ok ⟨"https://x.example/a".toList, [], [], [], [], []⟩)
        (.error (.httpError 429 [])) (fun _ => .ok ("T".toList))
      = renderFallback
          (setLastMode
            (setLastSource ⟨true, true, false, [], true⟩ ("https://x.example/a".toList)) false)
          ⟨"https://x.example/a".toList, [], [], [], [], []⟩ (fun _ => .ok ("T".toList)) ∧
    handleScrape ⟨true, true, false, [], true⟩ true
        (.ok ⟨"https://x.example/a".toList, [], [], [], [], []⟩)
        (.error (.httpError 500 [])) (fun _ => .ok ("T".toList))
      = (setLastSource ⟨true, true, false, [], true⟩ ("https://x.example/a".toList),
          .errorPage ("LLM fallback: ".toList ++ Llm.errMsg (.httpError 500 []))) :=
  ⟨(handleScrape_rate_limit_asymmetry ⟨true, true, false, [], true⟩
      ⟨"https://x.example/a".toList, [], [], [], [], []⟩ [] (.httpError 500 [])
      (fun _ => .ok ("T".toList)) rfl (by decide)).1,
   (handleScrape_rate_limit_asymmetry ⟨true, true, false, [], true⟩
      ⟨"https://x.example/a".toList, [], [], [], [], []⟩ [] (.httpError 500 [])
      (fun _ => .ok ("T".toList)) rfl (by decide)).2.2⟩

/-- C2 counterexample: with stickyMode = composed (llmLastSet and
llmLastMode both true) and the composer unavailable, the navigation handler
runs `useLLM := a.navigationMode(); a.setLastMode(useLLM)` — the effective
mode is template (the claim's first half), but afterwards llmLastMode is
false, i.e. the sticky state records the demoted template mode, not the
composed mode the claim says it still records. -/
theorem navRecordMode_counterexample :
    (navRecordMode ⟨true, true, false, [], false⟩).1 = false ∧
    ((navRecordMode ⟨true, true, false, [], false⟩).2).llmLastMode = false ∧
    ((navRecordMode ⟨true, true, false, [], false⟩).2).llmLastSet = true := by decide

/-- C2 (amended): for an in-page navigation while stickyMode is composed but
the composer is unavailable, the effective render mode for that request is
template, and the handler records the demoted mode: afterwards llmLastSet is
still true and llmLastMode is false (template), not the attempted composed
mode. -/
theorem navRecordMode_demotes (st : AppState) (hset : st.llmLastSet = true)
    (hmode : st.llmLastMode = true) (hav : st.llmAvailable = false) :
    navRecordMode st = (false, { st with llmLastMode := false, llmLastSet := true }) := by
  simp [navRecordMode, navigationMode, setLastMode, hset, hmode, hav]

theorem navRecordMode_demotes_witness :
    navRecordMode ⟨true, true, true, [], false⟩ = (false, ⟨false, true, true, [], false⟩) :=
  navRecordMode_demotes ⟨true, true, true, [], false⟩ rfl rfl rfl

/-- C9: whenever extraction succeeds, `handleScrape` stores the document's
source URL into lastSource before the compose step, so afterwards
lastSource equals the fetched document's source URL — in every branch,
including a failing composer call. (`setLastSource` stores the TrimSpace of
its argument; source URLs reaching `handleScrape` are already trimmed by
both call sites, which the hypothesis records.) -/
theorem handleScrape_records_lastSource (st : AppState) (useLLM : Bool)
    (result : ScrapeResult) (llmResult : Except Llm.GoError Str)
    (renderSimpleF : ScrapeResult → Except Str Str)
    (htrim : trimSpace result.sourceURL = result.sourceURL) :
    ((handleScrape st useLLM (.ok result) llmResult renderSimpleF).1).lastSource
      = result.sourceURL := by
  cases llmResult with
  | ok h =>
    cases hr : renderSimpleF result <;>
      by_cases hc : (useLLM && st.llmAvailable) = true <;>
        simp [handleScrape, renderFallback, hr, hc, setLastSource, setLastMode, htrim]
  | error err =>
    cases hr : renderSimpleF result <;>
      by_cases hc : (useLLM && st.llmAvailable) = true <;>
        by_cases hrl : Llm.IsRateLimited err = true <;>
          simp [handleScrape, renderFallback, hr, hc, hrl, setLastSource, setLastMode, htrim]

theorem handleScrape_records_lastSource_witness :
    ((handleScrape ⟨true, true, false, [], true⟩ true
        (.ok ⟨"https://x.example/a".toList, [], [], [], [], []⟩)
        (.error (.httpError 500 [])) (fun _ => .ok ("T".toList))).1).lastSource
      = "https://x.example/a".toList :=
  handleScrape_records_lastSource ⟨true, true, false, [], true⟩ true
    ⟨"https://x.example/a".toList, [], [], [], [], []⟩ (.error (.httpError 500 []))
    (fun _ => .ok ("T".toList)) (by decide)

end Browser

namespace NetURL

/-- Modelled subset of a Go `net/url` `URL` value, covering URL strings
without query, fragment, userinfo, percent-escapes, or "." and ".." path
segments (none of which the navigation claims involve): the scheme, the
opaque part (non-hierarchical URLs such as javascript:alert(1)), host,
path, and the OmitHost flag `Parse` sets for scheme:/path forms. -/
structure URL where
  scheme : Str
  opq : Str
  host : Str
  path : Str
  omitHost : Bool
deriving DecidableEq

/-- Scheme letters, as `getscheme` classifies them. -/
def isSchemeAlpha (c : Char) : Bool := ('a' ≤ c && c ≤ 'z') || ('A' ≤ c && c ≤ 'Z')

/-- Digits and `+ - .`, allowed in a scheme after the first character. -/
def isSchemeDigitExtra (c : Char) : Bool := ('0' ≤ c && c ≤ '9') || c == '+' || c == '-' || c == '.'

/-- Mirrors `getscheme` from net/url: scan for ':'; letters always allowed;
digits and `+ - .` allowed except first (a leading one means no scheme);
':' first is an error (none); any other character means no scheme and the
whole input is the rest. -/
def getSchemeLoop (raw : Str) : Str → Nat → Option (Str × Str)
  | [], _ => some ([], raw)
  | c :: rest, i =>
    if isSchemeAlpha c then getSchemeLoop raw rest (i + 1)
    else if isSchemeDigitExtra c then
      if i = 0 then some ([], raw) else getSchemeLoop raw rest (i + 1)
    else if c = ':' then
      if i = 0 then none else some (raw.take i, raw.drop (i + 1))
    else some ([], raw)

/-- Entry point of the `getscheme` scan. -/
def getScheme (raw : Str) : Option (Str × Str) := getSchemeLoop raw raw 0

/-- ASCII lowercase, as `strings.ToLower` acts on scheme characters
(schemes contain only ASCII letters, digits and `+ - .`). -/
def toLowerChar (c : Char) : Char :=
  if 'A' ≤ c && c ≤ 'Z' then Char.ofNat (c.toNat + 32) else c

/-- `strings.ToLower` on a scheme. -/
def toLowerStr (s : Str) : Str := s.map toLowerChar

/-- Whether the first path segment (up to the first '/') contains ':' —
scheme-less non-rooted URLs with such a segment are a `Parse` error
("first path segment in URL cannot contain colon"). -/
def firstSegmentHasColon (rest : Str) : Bool :=
  (rest.takeWhile (fun c => !(c == '/'))).contains ':'

/-- Mirrors `url.Parse` (non-viaRequest) on the modelled subset: scheme via
`getscheme` (lowercased); a non-rooted rest with a scheme is opaque; a
scheme-less non-rooted rest whose first segment has a colon is an error;
a "//" rest yields authority (host up to the next '/') and path; a rooted
rest with a scheme sets OmitHost; otherwise the rest is the path. -/
def parseURL (raw : Str) : Option URL :=
  match getScheme raw with
  | none => none
  | some (sch, rest) =>
    let scheme := toLowerStr sch
    if hasPfx rest ['/'] = false ∧ scheme ≠ [] then
      some ⟨scheme, rest, [], [], false⟩
    else if hasPfx rest ['/'] = false ∧ scheme = [] ∧ firstSegmentHasColon rest = true then
      none
    else if (scheme ≠ [] ∨ hasPfx rest ['/', '/', '/'] = false) ∧ hasPfx rest ['/', '/'] = true then
      let afterSlashes := rest.drop 2
      some ⟨scheme, [], afterSlashes.takeWhile (fun c => !(c == '/')),
            afterSlashes.dropWhile (fun c => !(c == '/')), false⟩
    else if scheme ≠ [] ∧ hasPfx rest ['/'] = true then
      some ⟨scheme, [], [], rest, true⟩
    else
      some ⟨scheme, [], [], rest, false⟩

/-- Mirrors net/url `resolvePath` on the modelled subset (no "." or ".."
segments): a reference starting with '/' replaces the base path; an empty
reference keeps it; otherwise the reference is appended after the base's
last '/'; the result gets a leading '/' when non-empty. -/
def resolvePath (base ref : Str) : Str :=
  let full :=
    if ref = [] then base
    else if hasPfx ref ['/'] = false then
      (base.reverse.dropWhile (fun c => !(c == '/'))).reverse ++ ref
    else ref
  if full = [] then []
  else if hasPfx full ['/'] = true then full else '/' :: full

/-- Mirrors `(*URL).ResolveReference` on the modelled subset (no query,
fragment or userinfo): a reference with scheme or host wins (path cleaned);
an opaque reference keeps only the base scheme; an empty-path reference
yields the base; otherwise base scheme and host with merged paths. -/
def resolveReference (u ref : URL) : URL :=
  if ref.scheme ≠ [] ∨ ref.host ≠ [] then
    { scheme := if ref.scheme = [] then u.scheme else ref.scheme,
      opq := ref.opq, host := ref.host, path := resolvePath ref.path [],
      omitHost := ref.omitHost }
  else if ref.opq ≠ [] then
    { scheme := u.scheme, opq := ref.opq, host := [], path := [], omitHost := ref.omitHost }
  else if ref.path = [] then u
  else
    { scheme := u.scheme, opq := [], host := u.host,
      path := resolvePath u.path ref.path, omitHost := ref.omitHost }

/-- Mirrors `(*URL).String` on the modelled subset: scheme with ':', then
either the opaque part, or "//host" (omitted for OmitHost empty-host forms)
followed by the path, a '/' inserted before a rootless path when a host is
present. -/
def urlString (u : URL) : Str :=
  let schemePart := if u.scheme ≠ [] then u.scheme ++ [':'] else []
  if u.opq ≠ [] then schemePart ++ u.opq
  else
    let authPart :=
      if u.scheme ≠ [] ∨ u.host ≠ [] then
        if u.omitHost ∧ u.host = [] then []
        else if u.host ≠ [] ∨ u.path ≠ [] then ['/', '/'] ++ u.host
        else []
      else []
    let pathPart :=
      if u.path ≠ [] ∧ hasPfx u.path ['/'] = false ∧ u.host ≠ [] then '/' :: u.path else u.path
    schemePart ++ authPart ++ pathPart

end NetURL

namespace Browser

/-- Mirrors `resolveTarget` from internal/browser/app.go over the modelled
net/url subset: trim the candidate; reject empty; reject parse errors; an
absolute candidate (non-empty scheme) is accepted iff its scheme is http or
https; otherwise require a non-empty last source URL, resolve the candidate
against it, and accept iff the resolved scheme is http or https. -/
def resolveTarget (target lastSource : Str) : Option Str :=
  if trimSpace target = [] then none
  else
    match NetURL.parseURL (trimSpace target) with
    | none => none
    | some parsed =>
      if parsed.scheme ≠ [] then
        if parsed.scheme = "http".toList ∨ parsed.scheme = "https".toList
        then some (NetURL.urlString parsed) else none
      else if lastSource = [] then none
      else
        match NetURL.parseURL lastSource with
        | none => none
        | some baseURL =>
          if (NetURL.resolveReference baseURL parsed).scheme = "http".toList
            ∨ (NetURL.resolveReference baseURL parsed).scheme = "https".toList
          then some (NetURL.urlString (NetURL.resolveReference baseURL parsed)) else none

/-- C8: navigation resolution — the empty candidate is rejected;
javascript:alert(1) is rejected and https://a.example/x accepted whatever
the last source; an absolute candidate is accepted iff its scheme is http
or https; a relative candidate with no last source URL is rejected; a
relative candidate with a last source URL is resolved against it and
accepted iff the resolved scheme is http or https (/y against
https://a.example/base gives https://a.example/y). -/
theorem resolveTarget_spec :
    (∀ last : Str, resolveTarget [] last = none)
    ∧ (∀ last : Str, resolveTarget ("javascript:alert(1)".toList) last = none)
    ∧ (∀ last : Str, resolveTarget ("https://a.example/x".toList) last
        = some ("https://a.example/x".toList))
    ∧ resolveTarget ("/y".toList) ("https://a.example/base".toList)
        = some ("https://a.example/y".toList)
    ∧ (∀ s last : Str, ∀ u : NetURL.URL,
        NetURL.parseURL (trimSpace s) = some u → u.scheme ≠ [] →
        resolveTarget s last
          = if u.scheme = "http".toList ∨ u.scheme = "https".toList
            then some (NetURL.urlString u) else none)
    ∧ (∀ s : Str, ∀ u : NetURL.URL,
        NetURL.parseURL (trimSpace s) = some u → u.scheme = [] →
        resolveTarget s [] = none)
    ∧ (∀ s base : Str, ∀ u b : NetURL.URL, trimSpace s ≠ [] → base ≠ [] →
        NetURL.parseURL (trimSpace s) = some u → u.scheme = [] →
        NetURL.parseURL base = some b →
        resolveTarget s base
          = if (NetURL.resolveReference b u).scheme = "http".toList
              ∨ (NetURL.resolveReference b u).scheme = "https".toList
            then some (NetURL.urlString (NetURL.resolveReference b u)) else none) := by
  have hnilparse : NetURL.parseURL [] = some ⟨[], [], [], [], false⟩ := rfl
  refine ⟨?_, ?_, ?_, ?_, ?_, ?_, ?_⟩
  · intro last; rfl
  · intro last; rfl
  · intro last; rfl
  · rfl
  · intro s last u hp hs
    by_cases ht : trimSpace s = []
    · rw [ht, hnilparse] at hp
      cases hp
      simp at hs
    · simp [resolveTarget, ht, hp, hs]
  · intro s u hp hs
    by_cases ht : trimSpace s = []
    · simp [resolveTarget, ht]
    · simp [resolveTarget, ht, hp, hs]
  · intro s base u b ht hb hp hs hpb
    simp [resolveTarget, ht, hp, hs, hb, hpb]

theorem resolveTarget_spec_witness :
    resolveTarget ("foo/bar".toList) [] = none ∧
    resolveTarget ("ftp://h/p".toList) ("https://a.example/".toList) = none := by
  constructor
  · exact resolveTarget_spec.2.2.2.2.2.1 ("foo/bar".toList)
      ⟨[], [], [], "foo/bar".toList, false⟩ (by decide) (by decide)
  · have h := resolveTarget_spec.2.2.2.2.1 ("ftp://h/p".toList) ("https://a.example/".toList)
      ⟨"ftp".toList, [], "h".toList, "/p".toList, false⟩ (by decide) (by decide)
    exact h.trans (by decide)

end Browser

end Chimera
